import Mathlib

/-!
Verification development for the sqlfmt pretty-printing core.

The definitions below are a shallow embedding of the Go sources:
* `src/pretty/prettier.go` — the document algebra (`Doc`, smart constructors,
  `flatten`, `Group`, `Join`, `JoinGroup`, `Bracket`, serialization).
* `src/pretty/main.go` — the engine (`best` / `beExec.be` with its
  per-invocation memoization cache, `better`, `fits`, `layout`,
  `Pretty`, `PrettyString`).
* `src/unnamed/part_002` — the cache-free reference reduction `be`.
* `src/sqlfmt.go` — the statement pipeline `FmtSQL` and the JSON formatter
  `fmtJSONNode`.

Go `panic` sites are modelled by `Option`-valued functions returning `none`;
machine integers are modelled by `Int` (column positions, widths and nest
amounts are Go `int`s).  Recursions that Go drives by unbounded recursion are
modelled with an explicit fuel argument so that every definition is
executable by the kernel; wrappers supply fuel that is provably sufficient.
-/

namespace Sqlfmt

/-- Document variants, mirroring the Go `Doc` interface implementations
`_nil`, `text`, `line`, `nest`, `concat`, `union`, `textX`, `lineX`
in `src/pretty/prettier.go`. -/
inductive Doc where
  | nil : Doc
  | text (s : String) : Doc
  | line : Doc
  | nest (n : Int) (d : Doc) : Doc
  | concat (a b : Doc) : Doc
  | union (a b : Doc) : Doc
  | textX (s : String) (d : Doc) : Doc
  | lineX (i : Int) (d : Doc) : Doc
deriving DecidableEq

/-- Go `Nil`. -/
def Nil : Doc := Doc.nil

/-- Go `Text`. -/
def Text (s : String) : Doc := Doc.text s

/-- Go `Line`. -/
def Line : Doc := Doc.line

/-- Go `Nest`. -/
def Nest (n : Int) (d : Doc) : Doc := Doc.nest n d

/-- The smart constructor `Concat` from `src/pretty/prettier.go`: it
eliminates `Nil` identities (the Go nil-pointer default also maps to `Nil`). -/
def Concat (a b : Doc) : Doc :=
  if a = Doc.nil then b
  else if b = Doc.nil then a
  else Doc.concat a b

/-- Go `flatten` from `src/pretty/prettier.go`.  The Go function panics on
the resolved variants `textX`/`lineX`; those branches are modelled as `.nil`
and are unreachable for source documents (documents with no resolved
variants), which is the only way `flatten` is ever invoked by `Group`. -/
def flatten : Doc → Doc
  | Doc.nil => Doc.nil
  | Doc.concat a b => Concat (flatten a) (flatten b)
  | Doc.nest n d => Doc.nest n (flatten d)
  | Doc.text s => Doc.text s
  | Doc.line => Doc.text " "
  | Doc.union a _ => flatten a
  | Doc.textX _ _ => Doc.nil
  | Doc.lineX _ _ => Doc.nil

/-- Go `Group`: `union{flatten(d), d}`. -/
def Group (d : Doc) : Doc := Doc.union (flatten d) d

/-- Go `Fold` (variadic slice modelled as a list). -/
def Fold (f : Doc → Doc → Doc) : List Doc → Doc
  | [] => Doc.nil
  | [d] => d
  | d :: ds => f d (Fold f ds)

/-- Go `Join` (variadic slice modelled as a list). -/
def Join (s : String) : List Doc → Doc
  | [] => Doc.nil
  | [d] => d
  | d :: ds => Fold Concat [d, Text s, Line, Join s ds]

/-- Go `ConcatLine`. -/
def ConcatLine (a b : Doc) : Doc := Concat a (Concat Line b)

/-- Go `JoinGroup`. -/
def JoinGroup (name divider : String) (d : List Doc) : Doc :=
  Group (Concat (Text name)
    (Nest 1 (Concat Line (Group (Join divider d)))))

/-- Go `Bracket` from `src/pretty/prettier.go`.  The unions with `Text("")`
(instead of just `Line`) prevent a space being printed when lines are
concatenated. -/
def Bracket (l : String) (x : Doc) (r : String) : Doc :=
  Group (Fold Concat
    [Text l,
     Nest 2 (Concat (Doc.union (Text "") Line) x),
     Doc.union (Text "") Line,
     Text r])

/-- Modelled from the spec: `BracketDoc`, the `Bracket` variant that takes
documents for the brackets; the function lives in the external pretty
library consumed by `src/sqlfmt.go` and is not under `src/`.  Per spec
section 4.A it is `Bracket` with document-valued brackets, including the
tight-line substitution `Union(Text(""), Line)` for the two `Line`s. -/
def BracketDoc (l x r : Doc) : Doc :=
  Group (Fold Concat
    [l,
     Nest 2 (Concat (Doc.union (Text "") Line) x),
     Doc.union (Text "") Line,
     r])

/-- Modelled from the spec: `NestUnder`, from the external pretty library
consumed by `src/sqlfmt.go` and not under `src/`.  Per spec section 4.A it
renders `head body` on one line when it fits, otherwise `head` above `body`
indented by two. -/
def NestUnder (head body : Doc) : Doc :=
  Group (Concat head (Nest 2 (Concat Line body)))

/-- Character-level approximation of Go `%q` escaping (used only to build
memoization keys, where only injectivity on the documents at hand matters):
ASCII control escapes plus quote and backslash. -/
def goQuoteChar (c : Char) : String :=
  if c = '"' then "\\\""
  else if c = '\\' then "\\\\"
  else if c = '\n' then "\\n"
  else if c = '\t' then "\\t"
  else if c = '\r' then "\\r"
  else String.singleton c

/-- Go `%q` of a string: surrounding quotes plus escapes. -/
def goQuote (s : String) : String :=
  "\"" ++ String.join (s.toList.map goQuoteChar) ++ "\""

/-- The `String()` methods on the document variants from
`src/pretty/prettier.go`, used by `beExec.be` to build cache keys. -/
def Doc.ser : Doc → String
  | Doc.nil => "NIL"
  | Doc.text s => "(" ++ goQuote s ++ ")"
  | Doc.line => "LINE"
  | Doc.nest n d => "(NEST " ++ toString n ++ " " ++ d.ser ++ ")"
  | Doc.concat a b => "(" ++ a.ser ++ " <> " ++ b.ser ++ ")"
  | Doc.union a b => "(" ++ a.ser ++ " :<|> " ++ b.ser ++ ")"
  | Doc.textX s d => "(" ++ s ++ " TEXTX " ++ d.ser ++ ")"
  | Doc.lineX i d => "(" ++ toString i ++ " LINEX " ++ d.ser ++ ")"

/-- Go `IDoc`: an indent paired with a document. -/
structure IDoc where
  i : Int
  d : Doc
deriving DecidableEq

/-- The `String()` method of `IDoc` (format `{%d: %s}`). -/
def IDoc.ser (x : IDoc) : String :=
  "\x7b" ++ toString x.i ++ ": " ++ x.d.ser ++ "\x7d"

/-- Serialization of a worklist, as built by `beExec.be` for cache keys. -/
def serList (xs : List IDoc) : String :=
  String.join (xs.map IDoc.ser)

/-- Structural size of a document, used as a fuel measure for the worklist
reduction (every reduction step strictly decreases the summed size). -/
def Doc.size : Doc → Nat
  | Doc.nil => 1
  | Doc.text _ => 1
  | Doc.line => 1
  | Doc.nest _ d => 1 + d.size
  | Doc.concat a b => 1 + a.size + b.size
  | Doc.union a b => 1 + a.size + b.size
  | Doc.textX _ d => 1 + d.size
  | Doc.lineX _ d => 1 + d.size

/-- Summed size of a worklist. -/
def sizeL (xs : List IDoc) : Nat :=
  (xs.map (fun x => x.d.size)).sum

/-- Go `fits` from `src/pretty/main.go`: whether the resolved stream can
begin within `w` remaining columns before the first newline.  The Go
function panics on unresolved variants; that is modelled as `none`. -/
def fits : Int → Doc → Option Bool
  | w, x =>
    if w < 0 then some false
    else
      match x with
      | Doc.nil => some true
      | Doc.textX s d => fits (w - (s.length : Int)) d
      | Doc.lineX _ _ => some true
      | _ => none

/-- Go `layout` from `src/pretty/main.go`: render a resolved stream.  The
Go function panics on unresolved variants, and `bytes.Repeat` panics on a
negative indent; both are modelled as `none`. -/
def layout : Doc → Option String
  | Doc.nil => some ""
  | Doc.textX s d => (layout d).map (fun rest => s ++ rest)
  | Doc.lineX i d =>
    if i < 0 then none
    else (layout d).map
      (fun rest => "\n" ++ String.mk (List.replicate i.toNat ' ') ++ rest)
  | _ => none

/-- The memoization table of `beExec` (`map[string]Doc`), modelled as an
association list; `lookup` finds the most recent binding, matching map
overwrite semantics. -/
abbrev Cache := List (String × Doc)

/-- Cache lookup used by `be` (newest binding wins, like Go map updates). -/
def Cache.lookup (key : String) : Cache → Option Doc
  | [] => none
  | (k, v) :: rest => if k = key then some v else Cache.lookup key rest

/-- Go `beExec.be` from `src/pretty/main.go`: the memoized worklist
reduction.  `cancelled` models the state of the `done` channel (a constant
token, checked at the top of every step).  The per-invocation cache is
threaded in Go evaluation order: at a `union` head the key is the
serialized worklist; on a miss the left branch is reduced first, then
`better`/`fits` decides, and the result is stored.  Fuel exhaustion and the
Go panic on unresolved variants in the worklist both return `none`; the
wrapper `best` supplies provably sufficient fuel. -/
def be (cancelled : Bool) (w : Int) :
    Nat → Cache → Int → List IDoc → Option (Doc × Cache)
  | 0, _, _, _ => none
  | _ + 1, cache, _, [] => some (Doc.nil, cache)
  | fuel + 1, cache, k, d :: z =>
    if cancelled then some (Doc.nil, cache)
    else
      match d.d with
      | Doc.nil => be cancelled w fuel cache k z
      | Doc.concat a b =>
        be cancelled w fuel cache k (⟨d.i, a⟩ :: ⟨d.i, b⟩ :: z)
      | Doc.nest n dd =>
        be cancelled w fuel cache k (⟨d.i + n, dd⟩ :: z)
      | Doc.text s =>
        match be cancelled w fuel cache (k + (s.length : Int)) z with
        | none => none
        | some (st, c1) => some (Doc.textX s st, c1)
      | Doc.line =>
        match be cancelled w fuel cache d.i z with
        | none => none
        | some (st, c1) => some (Doc.lineX d.i st, c1)
      | Doc.union a b =>
        let key := serList (d :: z)
        match Cache.lookup key cache with
        | some v => some (v, cache)
        | none =>
          match be cancelled w fuel cache k (⟨d.i, a⟩ :: z) with
          | none => none
          | some (x, c1) =>
            match fits (w - k) x with
            | none => none
            | some true => some (x, (key, x) :: c1)
            | some false =>
              match be cancelled w fuel c1 k (⟨d.i, b⟩ :: z) with
              | none => none
              | some (y, c2) => some (y, (key, y) :: c2)
      | Doc.textX _ _ => none
      | Doc.lineX _ _ => none

/-- Go `best` from `src/pretty/main.go`: builds a fresh `beExec` (empty
cache, scoped to this invocation) and reduces the initial worklist. -/
def best (cancelled : Bool) (w k : Int) (x : Doc) : Option Doc :=
  (be cancelled w (sizeL [⟨0, x⟩] + 1) [] k [⟨0, x⟩]).map Prod.fst

/-- Error surfaced by the engine entry points. -/
inductive PError where
  | cancelled : PError
deriving DecidableEq

/-- Go `Pretty` from `src/pretty/main.go`.  The result pairs the bytes
written to the sink with the returned error: `best` runs first, then the
cancellation token is consulted (a pre-cancelled token returns the
cancelled error before `layout` writes anything), then `layout` renders.
A panic anywhere is `none`. -/
def Pretty (cancelled : Bool) (d : Doc) (n : Int) :
    Option (String × Option PError) :=
  match best cancelled n 0 d with
  | none => none
  | some b =>
    if cancelled then some ("", some PError.cancelled)
    else
      match layout b with
      | none => none
      | some s => some (s, none)

/-- Go `PrettyString`: accumulates into a string builder via `Pretty` and
returns the accumulated string together with the error. -/
def PrettyString (cancelled : Bool) (d : Doc) (n : Int) :
    Option (String × Option PError) :=
  Pretty cancelled d n

/-- The cache-free reference reduction `be` from `src/unnamed/part_002`
(lines 31–92): identical worklist rules, no cancellation channel and no
memoization table. -/
def beU (w : Int) : Nat → Int → List IDoc → Option Doc
  | 0, _, _ => none
  | _ + 1, _, [] => some Doc.nil
  | fuel + 1, k, d :: z =>
    match d.d with
    | Doc.nil => beU w fuel k z
    | Doc.concat a b => beU w fuel k (⟨d.i, a⟩ :: ⟨d.i, b⟩ :: z)
    | Doc.nest n dd => beU w fuel k (⟨d.i + n, dd⟩ :: z)
    | Doc.text s =>
      match beU w fuel (k + (s.length : Int)) z with
      | none => none
      | some st => some (Doc.textX s st)
    | Doc.line =>
      match beU w fuel d.i z with
      | none => none
      | some st => some (Doc.lineX d.i st)
    | Doc.union a b =>
      match beU w fuel k (⟨d.i, a⟩ :: z) with
      | none => none
      | some x =>
        match fits (w - k) x with
        | none => none
        | some true => some x
        | some false => beU w fuel k (⟨d.i, b⟩ :: z)
    | Doc.textX _ _ => none
    | Doc.lineX _ _ => none

/-! ### Structural predicates on documents -/

/-- A source document: one with no occurrence of the resolved variants
`textX`/`lineX`.  Every document built from the public constructors is a
source document. -/
def isSource : Doc → Bool
  | Doc.nil => true
  | Doc.text _ => true
  | Doc.line => true
  | Doc.nest _ d => isSource d
  | Doc.concat a b => isSource a && isSource b
  | Doc.union a b => isSource a && isSource b
  | Doc.textX _ _ => false
  | Doc.lineX _ _ => false

/-- A flat document: no `line`, no `union`, no resolved variants.  This is
the shape `flatten` produces. -/
def flatD : Doc → Bool
  | Doc.nil => true
  | Doc.text _ => true
  | Doc.line => false
  | Doc.nest _ d => flatD d
  | Doc.concat a b => flatD a && flatD b
  | Doc.union _ _ => false
  | Doc.textX _ _ => false
  | Doc.lineX _ _ => false

/-- No text atom of the document contains a newline character (the data
model requires this of callers). -/
def noNlTexts : Doc → Bool
  | Doc.nil => true
  | Doc.text s => decide ('\n' ∉ s.toList)
  | Doc.line => true
  | Doc.nest _ d => noNlTexts d
  | Doc.concat a b => noNlTexts a && noNlTexts b
  | Doc.union a b => noNlTexts a && noNlTexts b
  | Doc.textX _ d => noNlTexts d
  | Doc.lineX _ d => noNlTexts d

/-- A stream of text atoms only (ending in `nil`). -/
def textOnly : Doc → Bool
  | Doc.nil => true
  | Doc.textX _ d => textOnly d
  | _ => false

/-- The text carried by a stream of text atoms. -/
def streamStr : Doc → String
  | Doc.textX s d => s ++ streamStr d
  | _ => ""

/-- One-line text of a flat document: concatenation of its text atoms. -/
def flatStr : Doc → String
  | Doc.nil => ""
  | Doc.text s => s
  | Doc.line => ""
  | Doc.nest _ d => flatStr d
  | Doc.concat a b => flatStr a ++ flatStr b
  | Doc.union _ _ => ""
  | Doc.textX _ _ => ""
  | Doc.lineX _ _ => ""

/-- One-line text of a flat worklist. -/
def flatStrL : List IDoc → String
  | [] => ""
  | x :: z => flatStr x.d ++ flatStrL z

/-! ### Lemmas about `flatten` and streams -/

theorem isSource_Concat {a b : Doc} (ha : isSource a = true)
    (hb : isSource b = true) : isSource (Concat a b) = true := by
  unfold Concat
  split
  · exact hb
  · split
    · exact ha
    · simp [isSource, ha, hb]

theorem flatD_Concat {a b : Doc} (ha : flatD a = true)
    (hb : flatD b = true) : flatD (Concat a b) = true := by
  unfold Concat
  split
  · exact hb
  · split
    · exact ha
    · simp [flatD, ha, hb]

theorem flatD_flatten (d : Doc) : flatD (flatten d) = true := by
  induction d with
  | nil => rfl
  | text s => rfl
  | line => rfl
  | nest n d ih => simpa [flatten, flatD] using ih
  | concat a b iha ihb => exact flatD_Concat iha ihb
  | union a b iha _ => simpa [flatten] using iha
  | textX s d _ => rfl
  | lineX i d _ => rfl

theorem isSource_of_flatD {d : Doc} (h : flatD d = true) :
    isSource d = true := by
  induction d with
  | nil => rfl
  | text s => rfl
  | line => simp [flatD] at h
  | nest n d ih => simp only [flatD] at h; simpa [isSource] using ih h
  | concat a b iha ihb =>
    simp only [flatD, Bool.and_eq_true] at h
    simp [isSource, iha h.1, ihb h.2]
  | union a b _ _ => simp [flatD] at h
  | textX s d _ => simp [flatD] at h
  | lineX i d _ => simp [flatD] at h

theorem layout_textOnly {st : Doc} (h : textOnly st = true) :
    layout st = some (streamStr st) := by
  induction st with
  | nil => rfl
  | textX s d ih =>
    simp only [textOnly] at h
    simp [layout, streamStr, ih h]
  | line => simp [textOnly] at h
  | text s => simp [textOnly] at h
  | nest n d _ => simp [textOnly] at h
  | concat a b _ _ => simp [textOnly] at h
  | union a b _ _ => simp [textOnly] at h
  | lineX i d _ => simp [textOnly] at h

/-- Total text length of a stream of text atoms. -/
def streamLen : Doc → Nat
  | Doc.textX s d => s.length + streamLen d
  | _ => 0

theorem streamStr_length {st : Doc} (h : textOnly st = true) :
    (streamStr st).length = streamLen st := by
  induction st with
  | nil => rfl
  | textX s d ih =>
    simp only [textOnly] at h
    simp only [streamStr, streamLen, String.length_append, ih h]
  | line => simp [textOnly] at h
  | text s => simp [textOnly] at h
  | nest n d _ => simp [textOnly] at h
  | concat a b _ _ => simp [textOnly] at h
  | union a b _ _ => simp [textOnly] at h
  | lineX i d _ => simp [textOnly] at h

theorem fits_textOnly {st : Doc} (h : textOnly st = true) (v : Int) :
    fits v st = some (decide ((streamLen st : Int) ≤ v)) := by
  induction st generalizing v with
  | nil =>
    by_cases hv : v < 0
    · have h0 : ¬ ((streamLen Doc.nil : Int) ≤ v) := by
        simp only [streamLen]
        omega
      simp [fits, hv, h0]
    · have h0 : (streamLen Doc.nil : Int) ≤ v := by
        simp only [streamLen]
        omega
      simp [fits, hv, h0]
  | textX s d ih =>
    simp only [textOnly] at h
    by_cases hv : v < 0
    · have h0 : ¬ ((streamLen (Doc.textX s d) : Int) ≤ v) := by
        simp only [streamLen]
        push_cast
        omega
      simp [fits, hv, h0]
    · have hstep : fits v (Doc.textX s d) = fits (v - (s.length : Int)) d := by
        simp [fits, hv]
      rw [hstep, ih h]
      have hiff : ((streamLen d : Int) ≤ v - (s.length : Int)) ↔
          ((streamLen (Doc.textX s d) : Int) ≤ v) := by
        simp only [streamLen]
        push_cast
        omega
      rw [decide_eq_decide.mpr hiff]
  | line => simp [textOnly] at h
  | text s => simp [textOnly] at h
  | nest n d _ => simp [textOnly] at h
  | concat a b _ _ => simp [textOnly] at h
  | union a b _ _ => simp [textOnly] at h
  | lineX i d _ => simp [textOnly] at h

/-! ### Reduction of flat worklists -/

theorem sizeL_nil : sizeL [] = 0 := rfl

theorem sizeL_cons (x : IDoc) (z : List IDoc) :
    sizeL (x :: z) = x.d.size + sizeL z := by
  simp [sizeL]

/-- On a flat worklist (no lines, no unions, no resolved variants) the
memoized reduction succeeds, leaves the cache untouched, and produces the
stream of the worklist's text atoms, independently of the width and the
column. -/
theorem be_flat :
    ∀ (fuel : Nat) (xs : List IDoc) (c : Cache) (k w : Int),
    sizeL xs + 1 ≤ fuel → (∀ x ∈ xs, flatD x.d = true) →
    ∃ st, be false w fuel c k xs = some (st, c) ∧ textOnly st = true ∧
      streamStr st = flatStrL xs := by
  intro fuel
  induction fuel with
  | zero => intro xs c k w hsz _; omega
  | succ fuel ih =>
    intro xs c k w hsz hflat
    match xs with
    | [] =>
      refine ⟨Doc.nil, ?_, rfl, rfl⟩
      simp [be]
    | ⟨i, dd⟩ :: z =>
      have hhd : flatD dd = true := hflat ⟨i, dd⟩ (List.mem_cons_self _ _)
      have htl : ∀ x ∈ z, flatD x.d = true :=
        fun x hx => hflat x (List.mem_cons_of_mem _ hx)
      rw [sizeL_cons] at hsz
      cases dd with
      | nil =>
        have hsz2 : sizeL z + 1 ≤ fuel := by
          simp only [Doc.size] at hsz
          omega
        obtain ⟨st, hbe, hto, hss⟩ := ih z c k w hsz2 htl
        refine ⟨st, ?_, hto, ?_⟩
        · simpa [be] using hbe
        · simpa [flatStrL, flatStr] using hss
      | text s =>
        have hsz2 : sizeL z + 1 ≤ fuel := by
          simp only [Doc.size] at hsz
          omega
        obtain ⟨st, hbe, hto, hss⟩ :=
          ih z c (k + (s.length : Int)) w hsz2 htl
        refine ⟨Doc.textX s st, ?_, ?_, ?_⟩
        · simp [be, hbe]
        · simpa [textOnly] using hto
        · simp [streamStr, flatStrL, flatStr, hss]
      | line => simp [flatD] at hhd
      | nest n d2 =>
        have hsz2 : sizeL (⟨i + n, d2⟩ :: z) + 1 ≤ fuel := by
          rw [sizeL_cons]
          simp only [Doc.size] at hsz ⊢
          omega
        have hflat2 : ∀ x ∈ (⟨i + n, d2⟩ :: z : List IDoc), flatD x.d = true := by
          intro x hx
          rcases List.mem_cons.mp hx with h1 | h2
          · subst h1
            simpa [flatD] using hhd
          · exact htl x h2
        obtain ⟨st, hbe, hto, hss⟩ := ih (⟨i + n, d2⟩ :: z) c k w hsz2 hflat2
        refine ⟨st, ?_, hto, ?_⟩
        · simpa [be] using hbe
        · simpa [flatStrL, flatStr] using hss
      | concat a b =>
        simp only [flatD, Bool.and_eq_true] at hhd
        have hsz2 : sizeL (⟨i, a⟩ :: ⟨i, b⟩ :: z) + 1 ≤ fuel := by
          rw [sizeL_cons, sizeL_cons]
          simp only [Doc.size] at hsz ⊢
          omega
        have hflat2 : ∀ x ∈ (⟨i, a⟩ :: ⟨i, b⟩ :: z : List IDoc),
            flatD x.d = true := by
          intro x hx
          rcases List.mem_cons.mp hx with h1 | hx2
          · subst h1
            exact hhd.1
          · rcases List.mem_cons.mp hx2 with h2 | h3
            · subst h2
              exact hhd.2
            · exact htl x h3
        obtain ⟨st, hbe, hto, hss⟩ := ih (⟨i, a⟩ :: ⟨i, b⟩ :: z) c k w hsz2 hflat2
        refine ⟨st, ?_, hto, ?_⟩
        · simpa [be] using hbe
        · rw [hss]
          simp [flatStrL, flatStr, String.append_assoc]
      | union a b => simp [flatD] at hhd
      | textX s d2 => simp [flatD] at hhd
      | lineX i2 d2 => simp [flatD] at hhd

/-! ### The flattened rendering -/

theorem flatStr_Concat (a b : Doc) :
    flatStr (Concat a b) = flatStr a ++ flatStr b := by
  unfold Concat
  split
  · rename_i ha
    subst ha
    simp [flatStr]
  · split
    · rename_i hb
      subst hb
      simp [flatStr]
    · rfl

theorem noNl_flatStr_flatten {d : Doc} (h : noNlTexts d = true) :
    '\n' ∉ (flatStr (flatten d)).toList := by
  induction d with
  | nil => simp [flatten, flatStr]
  | text s =>
    simp only [noNlTexts, decide_eq_true_eq] at h
    simpa [flatten, flatStr] using h
  | line => decide
  | nest n d ih =>
    simp only [noNlTexts] at h
    simpa [flatten, flatStr] using ih h
  | concat a b iha ihb =>
    simp only [noNlTexts, Bool.and_eq_true] at h
    rw [show flatten (Doc.concat a b) = Concat (flatten a) (flatten b) from rfl,
      flatStr_Concat]
    intro hmem
    rw [show (flatStr (flatten a) ++ flatStr (flatten b)).toList
        = (flatStr (flatten a)).toList ++ (flatStr (flatten b)).toList by
      simp [String.toList, String.data_append]] at hmem
    rcases List.mem_append.mp hmem with h1 | h2
    · exact iha h.1 h1
    · exact ihb h.2 h2
  | union a b iha _ =>
    simp only [noNlTexts, Bool.and_eq_true] at h
    simpa [flatten] using iha h.1
  | textX s d _ => simp [flatten, flatStr]
  | lineX i d _ => simp [flatten, flatStr]

/-- Rendering a flattened document succeeds at any width and produces its
one-line text. -/
theorem prettyString_flatten (d : Doc) (w : Int) :
    PrettyString false (flatten d) w = some (flatStr (flatten d), none) := by
  have hflat : ∀ x ∈ ([⟨0, flatten d⟩] : List IDoc), flatD x.d = true := by
    intro x hx
    rcases List.mem_singleton.mp hx with rfl
    exact flatD_flatten d
  obtain ⟨st, hbe, hto, hss⟩ :=
    be_flat (sizeL [⟨0, flatten d⟩] + 1) [⟨0, flatten d⟩] [] 0 w le_rfl hflat
  have hout : streamStr st = flatStr (flatten d) := by
    rw [hss]
    simp [flatStrL]
  have hbest : best false w 0 (flatten d) = some st := by
    simp only [best, hbe]
    rfl
  simp [PrettyString, Pretty, hbest, layout_textOnly hto, hout]

/-- When the one-line text of `flatten d` fits in the width, the engine
applied to `Group d` picks the flattened branch and renders exactly that
text. -/
theorem prettyString_Group_flat (d : Doc) (w : Int)
    (hfit : (((flatStr (flatten d)).length : Int) ≤ w)) :
    PrettyString false (Group d) w = some (flatStr (flatten d), none) := by
  have hflat : ∀ x ∈ ([⟨0, flatten d⟩] : List IDoc), flatD x.d = true := by
    intro x hx
    rcases List.mem_singleton.mp hx with rfl
    exact flatD_flatten d
  have hszle : sizeL [⟨0, flatten d⟩] + 1
      ≤ sizeL [⟨0, Doc.union (flatten d) d⟩] := by
    rw [sizeL_cons, sizeL_cons, sizeL_nil]
    simp only [Doc.size]
    omega
  obtain ⟨st, hbe, hto, hss⟩ :=
    be_flat (sizeL [⟨0, Doc.union (flatten d) d⟩]) [⟨0, flatten d⟩] [] 0 w
      hszle hflat
  have hout : streamStr st = flatStr (flatten d) := by
    rw [hss]
    simp [flatStrL]
  have hlen : (streamLen st : Int) ≤ w - 0 := by
    rw [← streamStr_length hto, hout]
    omega
  have hfits : fits (w - 0) st = some true := by
    rw [fits_textOnly hto]
    simp only [Option.some.injEq]
    exact decide_eq_true hlen
  have hbest : best false w 0 (Group d) = some st := by
    show (be false w (sizeL [⟨0, Group d⟩] + 1) [] 0 [⟨0, Group d⟩]).map Prod.fst
      = some st
    rw [show (Group d) = Doc.union (flatten d) d from rfl]
    simp only [be, Bool.false_eq_true, if_false, Cache.lookup, hbe, hfits]
    rfl
  simp [PrettyString, Pretty, hbest, layout_textOnly hto, hout]

/-- C1 counterexample: the claim as stated fails at the public document
`Line` and width `80`: the flattened form renders as a single space of
length `1 ≤ 80`, yet `PrettyString(Line, 80)` is a newline, not the
flattened rendering. -/
theorem c1_counterexample :
    PrettyString false (flatten Line) 80 = some (" ", none) ∧
    (((" " : String).length : Int) ≤ 80) ∧
    PrettyString false Line 80 = some ("\n", none) ∧
    ("\n" : String) ≠ " " := by
  refine ⟨by decide, by decide, by decide, by decide⟩

/-- C1 (amended): for every document `d` whose text atoms contain no
newline, if the rendering `s` of `flatten d` has length at most `w`, then
`PrettyString(Group d, w)` returns exactly that flattened rendering — a
single line containing no newline character.  (The claim as stated, with
`d` in place of `Group d`, fails on documents with a bare `Line`; see the
counterexample.) -/
theorem c1_amended (d : Doc) (w : Int) (s : String)
    (hnl : noNlTexts d = true)
    (hren : PrettyString false (flatten d) w = some (s, none))
    (hfit : ((s.length : Int) ≤ w)) :
    PrettyString false (Group d) w = some (s, none) ∧
    s.toList.count '\n' = 0 := by
  have hs : s = flatStr (flatten d) := by
    have := prettyString_flatten d w
    rw [hren] at this
    exact (Prod.mk.injEq _ _ _ _).mp (Option.some.inj this) |>.1
  subst hs
  refine ⟨prettyString_Group_flat d w hfit, ?_⟩
  exact List.count_eq_zero.mpr (noNl_flatStr_flatten hnl)

/-- Witness for C1 (amended) at `d = Concat(Text "ab", Line)`, `w = 5`. -/
theorem c1_witness :
    (noNlTexts (Concat (Text "ab") Line) = true ∧
     PrettyString false (flatten (Concat (Text "ab") Line)) 5
       = some ("ab ", none) ∧
     ((("ab " : String).length : Int) ≤ 5)) ∧
    (PrettyString false (Group (Concat (Text "ab") Line)) 5
       = some ("ab ", none) ∧
     ("ab " : String).toList.count '\n' = 0) :=
  ⟨⟨by decide, by decide, by decide⟩,
   c1_amended (Concat (Text "ab") Line) 5 "ab "
     (by decide) (by decide) (by decide)⟩

/-! ### The union invariant (C2) -/

/-- The claim's stated invariant: every union subterm has its left branch
equal to the flatten of its right branch. -/
def unionsFlattenLeft : Doc → Bool
  | Doc.nil => true
  | Doc.text _ => true
  | Doc.line => true
  | Doc.nest _ d => unionsFlattenLeft d
  | Doc.concat a b => unionsFlattenLeft a && unionsFlattenLeft b
  | Doc.union a b =>
    decide (a = flatten b) && unionsFlattenLeft a && unionsFlattenLeft b
  | Doc.textX _ d => unionsFlattenLeft d
  | Doc.lineX _ d => unionsFlattenLeft d

/-- The invariant that actually holds of documents built from the public
constructors: every union subterm has a flat left branch (no lines, no
nested unions), and is either `Group`-shaped (`a = flatten b`) or the
tight-bracket substitution `(Text "", Line)`. -/
def unionsOK : Doc → Bool
  | Doc.nil => true
  | Doc.text _ => true
  | Doc.line => true
  | Doc.nest _ d => unionsOK d
  | Doc.concat a b => unionsOK a && unionsOK b
  | Doc.union a b =>
    (decide (a = flatten b) || (decide (a = Doc.text "") && decide (b = Doc.line)))
      && flatD a && unionsOK a && unionsOK b
  | Doc.textX _ d => unionsOK d
  | Doc.lineX _ d => unionsOK d

/-- Documents built from the public constructors and the derived helpers.
`Concat` is the smart constructor; unions are introduced only by `Group`,
`Bracket` and `BracketDoc`.  The helpers `Join`, `JoinGroup`, `ConcatLine`
and `Fold Concat` compose these and need no extra rules (see the closure
lemmas below). -/
inductive Built : Doc → Prop where
  | nil : Built Doc.nil
  | text (s : String) : Built (Doc.text s)
  | line : Built Doc.line
  | nest (n : Int) {d : Doc} : Built d → Built (Doc.nest n d)
  | concat {a b : Doc} : Built a → Built b → Built (Concat a b)
  | group {d : Doc} : Built d → Built (Group d)
  | bracket (l r : String) {x : Doc} : Built x → Built (Bracket l x r)
  | bracketDoc {l x r : Doc} :
      Built l → Built x → Built r → Built (BracketDoc l x r)

theorem built_Fold {ds : List Doc} (h : ∀ d ∈ ds, Built d) :
    Built (Fold Concat ds) := by
  induction ds with
  | nil => exact Built.nil
  | cons d ds ih =>
    cases ds with
    | nil => exact h d (List.mem_singleton.mpr rfl)
    | cons e es =>
      exact Built.concat (h d (List.mem_cons_self _ _))
        (ih fun x hx => h x (List.mem_cons_of_mem _ hx))

theorem built_Join (s : String) {ds : List Doc} (h : ∀ d ∈ ds, Built d) :
    Built (Join s ds) := by
  induction ds with
  | nil => exact Built.nil
  | cons d ds ih =>
    cases ds with
    | nil => exact h d (List.mem_singleton.mpr rfl)
    | cons e es =>
      refine built_Fold ?_
      intro x hx
      simp only [List.mem_cons, List.not_mem_nil, or_false] at hx
      rcases hx with rfl | rfl | rfl | rfl
      · exact h x (List.mem_cons_self _ _)
      · exact Built.text s
      · exact Built.line
      · exact ih fun y hy => h y (List.mem_cons_of_mem _ hy)

theorem built_ConcatLine {a b : Doc} (ha : Built a) (hb : Built b) :
    Built (ConcatLine a b) :=
  Built.concat ha (Built.concat Built.line hb)

theorem built_JoinGroup (name divider : String) {ds : List Doc}
    (h : ∀ d ∈ ds, Built d) : Built (JoinGroup name divider ds) :=
  Built.group (Built.concat (Built.text name)
    (Built.nest 1 (Built.concat Built.line (Built.group (built_Join divider h)))))

theorem unionsOK_Concat {a b : Doc} (ha : unionsOK a = true)
    (hb : unionsOK b = true) : unionsOK (Concat a b) = true := by
  unfold Concat
  split
  · exact hb
  · split
    · exact ha
    · simp [unionsOK, ha, hb]

theorem unionsOK_of_flatD {d : Doc} (h : flatD d = true) :
    unionsOK d = true := by
  induction d with
  | nil => rfl
  | text s => rfl
  | line => simp [flatD] at h
  | nest n d ih =>
    simp only [flatD] at h
    simpa [unionsOK] using ih h
  | concat a b iha ihb =>
    simp only [flatD, Bool.and_eq_true] at h
    simp [unionsOK, iha h.1, ihb h.2]
  | union a b _ _ => simp [flatD] at h
  | textX s d _ => simp [flatD] at h
  | lineX i d _ => simp [flatD] at h

theorem unionsOK_Group {d : Doc} (h : unionsOK d = true) :
    unionsOK (Group d) = true := by
  show unionsOK (Doc.union (flatten d) d) = true
  simp [unionsOK, flatD_flatten d, unionsOK_of_flatD (flatD_flatten d), h]

/-- C2 counterexample: `Bracket("[", Text "x", "]")` is built from the
helpers named by the claim, yet contains the tight union
`Union(Text "", Line)` whose left branch is not `flatten(Line) = Text " "`. -/
theorem c2_counterexample :
    Built (Bracket "[" (Text "x") "]") ∧
    unionsFlattenLeft (Bracket "[" (Text "x") "]") = false :=
  ⟨Built.bracket "[" "]" (Built.text "x"), by decide⟩

/-- C2 (amended): in every document built from the public constructors and
derived helpers, every union node `Union(a, b)` has a flat left branch `a`
(no lines, no nested unions) and is either `Group`-introduced, with
`a = flatten b`, or one of `Bracket`'s tight-line substitutions, with
`a = Text ""` and `b = Line` (where `flatten Line = Text " " ≠ Text ""`). -/
theorem c2_amended {d : Doc} (h : Built d) : unionsOK d = true := by
  induction h with
  | nil => rfl
  | text s => rfl
  | line => rfl
  | nest n _ ih => simpa [unionsOK] using ih
  | concat _ _ iha ihb => exact unionsOK_Concat iha ihb
  | group _ ih => exact unionsOK_Group ih
  | bracket l r _ ih =>
    refine unionsOK_Group ?_
    have hU : unionsOK (Doc.union (Text "") Doc.line) = true := by decide
    refine unionsOK_Concat (by rfl) ?_
    refine unionsOK_Concat ?_ ?_
    · show unionsOK (Doc.nest 2 (Concat (Doc.union (Text "") Line) _)) = true
      simp only [unionsOK]
      exact unionsOK_Concat hU ih
    · exact unionsOK_Concat hU (by rfl)
  | bracketDoc _ _ _ ihl ihx ihr =>
    refine unionsOK_Group ?_
    have hU : unionsOK (Doc.union (Text "") Doc.line) = true := by decide
    refine unionsOK_Concat ihl ?_
    refine unionsOK_Concat ?_ ?_
    · show unionsOK (Doc.nest 2 (Concat (Doc.union (Text "") Line) _)) = true
      simp only [unionsOK]
      exact unionsOK_Concat hU ihx
    · exact unionsOK_Concat hU ihr

/-- Witness for C2 (amended) at the tight-bracket document. -/
theorem c2_witness :
    unionsOK (Bracket "[" (Text "x") "]") = true :=
  c2_amended (Built.bracket "[" "]" (Built.text "x"))

/-! ### Panic safety of the engine (C10) -/

/-- C8: with a pre-cancelled token, `Pretty` and `PrettyString` return the
cancelled error with nothing written to the sink, and `best` returns the
empty resolved stream, for every document, width and column. -/
theorem c8_cancelled (d : Doc) (n w k : Int) :
    PrettyString true d n = some ("", some PError.cancelled) ∧
    Pretty true d n = some ("", some PError.cancelled) ∧
    best true w k d = some Doc.nil := by
  have hbest : ∀ w2 k2 : Int, best true w2 k2 d = some Doc.nil := by
    intro w2 k2
    simp [best, be]
  refine ⟨?_, ?_, hbest w k⟩
  · simp [PrettyString, Pretty, hbest n 0]
  · simp [Pretty, hbest n 0]

/-! ### Memoization changes the output (C3) -/

/-- The document exhibiting the memoization bug: the worklist
`[(0, Group(Line))]` is first reduced (and cached) at column 5 inside the
flattened branch of the outer group, and the cache entry is then reused at
column 1 inside the broken branch, where the un-memoized reduction makes
the opposite choice. -/
def c3doc : Doc :=
  Concat (Group (Concat (Text "abc") (Concat Line (Text "z")))) (Group Line)

/-- C3: at width 2 the memoized `beExec.be` (entry point `best`) returns a
stream rendering `"abc\nz\n"`, while the cache-free reference `be` returns
a stream rendering `"abc\nz "`; the two resolved streams differ, and the
document is built from the public constructors. -/
theorem c3_divergence :
    best false 2 0 c3doc
      = some (Doc.textX "abc" (Doc.lineX 0 (Doc.textX "z" (Doc.lineX 0 Doc.nil)))) ∧
    beU 2 (sizeL [⟨0, c3doc⟩] + 1) 0 [⟨0, c3doc⟩]
      = some (Doc.textX "abc" (Doc.lineX 0 (Doc.textX "z" (Doc.textX " " Doc.nil)))) ∧
    best false 2 0 c3doc ≠ beU 2 (sizeL [⟨0, c3doc⟩] + 1) 0 [⟨0, c3doc⟩] ∧
    Built c3doc := by
  refine ⟨by decide, by decide, by decide, ?_⟩
  exact Built.concat
    (Built.group (Built.concat (Built.text "abc")
      (Built.concat Built.line (Built.text "z"))))
    (Built.group Built.line)

/-! ### The JSON formatter (C5) -/

mutual
/-- JSON values (the generic value tree consumed by the formatter; the
concrete type lives in the external json library used by `src/sqlfmt.go`).
Lists are inlined as mutual inductives so all recursion is structural. -/
inductive JSON where
  | null : JSON
  | bool (b : Bool) : JSON
  | num (n : Int) : JSON
  | str (s : String) : JSON
  | arr (l : JList) : JSON
  | obj (l : JObj) : JSON

inductive JList where
  | nil : JList
  | cons (hd : JSON) (tl : JList) : JList

inductive JObj where
  | nil : JObj
  | cons (key : String) (val : JSON) (tl : JObj) : JObj
end

/-- Modelled from the spec: `canonicalString` of a JSON value, the
`String()` method of the external json library (not under `src/`).  The
formatter invokes it only on scalars and empty composites; the nonempty
composite cases are unreachable from `fmtJSONNode` and are left as `""`. -/
def jsonString : JSON → String
  | JSON.null => "null"
  | JSON.bool true => "true"
  | JSON.bool false => "false"
  | JSON.num n => toString n
  | JSON.str s => "\"" ++ s ++ "\""
  | JSON.arr JList.nil => "[]"
  | JSON.obj JObj.nil => "\x7b\x7d"
  | JSON.arr (JList.cons _ _) => ""
  | JSON.obj (JObj.cons _ _ _) => ""

/-- Go `prettyBracket` from `src/sqlfmt.go`. -/
def prettyBracket (l : String) (elems : List Doc) (r : String) : Doc :=
  BracketDoc (Text l) (Join "," elems) (Text r)

mutual
/-- Go `fmtJSONNode` from `src/sqlfmt.go`: objects become bracketed
`NestUnder(quoted-key ++ ":", value)` entries (the object iterator is
non-nil for any object, including the empty one); nonempty arrays become
bracketed element lists; everything else is a text atom of its canonical
string. -/
def fmtJSONNode : JSON → Doc
  | JSON.obj l => prettyBracket "\x7b" (fmtObjList l) "\x7d"
  | JSON.arr (JList.cons hd tl) =>
    prettyBracket "[" (fmtArrList (JList.cons hd tl)) "]"
  | j => Text (jsonString j)

/-- Object entries: `NestUnder(Text(quote(key)) ⊕ Text(":"), fmt(value))`
in iteration order. -/
def fmtObjList : JObj → List Doc
  | JObj.nil => []
  | JObj.cons k v tl =>
    NestUnder (Concat (Text (jsonString (JSON.str k))) (Text ":"))
      (fmtJSONNode v) :: fmtObjList tl

/-- Array elements, mapped through the formatter. -/
def fmtArrList : JList → List Doc
  | JList.nil => []
  | JList.cons hd tl => fmtJSONNode hd :: fmtArrList tl
end

/-- The JSON value `{"a":[1,2]}`. -/
def jsonC5 : JSON :=
  JSON.obj (JObj.cons "a"
    (JSON.arr (JList.cons (JSON.num 1) (JList.cons (JSON.num 2) JList.nil)))
    JObj.nil)

/-- C5: rendering the formatter's document for `{"a":[1,2]}` at width 80
yields exactly `{"a": [1, 2]}` — one line, a space after the colon and the
comma, and no space between the brackets and their contents. -/
theorem c5_json :
    PrettyString false (fmtJSONNode jsonC5) 80
      = some ("\x7b\"a\": [1, 2]\x7d", none) := by
  decide

/-! ### The statement pipeline (`src/sqlfmt.go`) -/

/-- The character class of `\s` in Go regular expressions:
`[\t\n\f\r ]`. -/
def isRegexSpace (c : Char) : Bool :=
  c = ' ' || c = '\t' || c = '\n' || c = '\x0c' || c = '\r'

/-- Go `unicode.IsSpace`: the Unicode `White_Space` property — the
Latin-1 white space `\t \n \v \f \r ' '` U+0085 U+00A0 plus U+1680,
U+2000–U+200A, U+2028, U+2029, U+202F, U+205F and U+3000. -/
def isUnicodeSpace (c : Char) : Bool :=
  c = ' ' || c = '\t' || c = '\n' || c = '\x0b' || c = '\x0c' || c = '\r' ||
  c = '\x85' || c = '\xa0' || c = '\u1680' ||
  ('\u2000' ≤ c && c ≤ '\u200A') ||
  c = '\u2028' || c = '\u2029' || c = '\u202F' || c = '\u205F' || c = '\u3000'

/-- Left half of Go `strings.TrimSpace`. -/
def trimLeftWS (s : List Char) : List Char := s.dropWhile isUnicodeSpace

/-- Go `strings.TrimRightFunc(·, unicode.IsSpace)`. -/
def trimRightWS (s : List Char) : List Char :=
  (s.reverse.dropWhile isUnicodeSpace).reverse

/-- Go `strings.TrimSpace` (both ends). -/
def trimSpace (s : List Char) : List Char := trimRightWS (trimLeftWS s)

/-- `FindString` of the anchored comment recognizer `^--.*\s*` from
`src/sqlfmt.go` (`ignoreComments`): on text beginning with `--` it matches
the two dashes, the rest of the line (`.` matches anything but newline,
greedily), then the maximal run of regex whitespace; on any other text
there is no match (the empty string). -/
def ignoreComments (s : List Char) : List Char :=
  if s.take 2 = ['-', '-'] then
    '-' :: '-' :: ((s.drop 2).takeWhile (fun c => decide (c ≠ '\n')) ++
      ((s.drop 2).dropWhile (fun c => decide (c ≠ '\n'))).takeWhile isRegexSpace)
  else []

/-- The comment-gathering loop of `FmtSQL` (`src/sqlfmt.go` lines 27–41):
while the remaining text begins with a line comment, append the match with
trailing whitespace trimmed, then `min(newlines in the match, 2)` newline
characters, and advance past the match; `hasContent` is set on every
match.  The fuel bounds the number of iterations; callers pass
`length + 1`, which is provably sufficient. -/
def commentGather : Nat → List Char → List Char → Bool →
    List Char × List Char × Bool
  | 0, acc, s, hc => (acc, s, hc)
  | fuel + 1, acc, s, hc =>
    let found := ignoreComments s
    if found = [] then (acc, s, hc)
    else
      commentGather fuel
        (acc ++ trimRightWS found ++
          List.replicate (min (found.count '\n') 2) '\n')
        (s.drop found.length) true

/-- One input blob of `FmtSQL`: the `for len(stmt) > 0` loop from
`src/sqlfmt.go`.  `split` models `parser.SplitFirstStatement` (the code
discards its error), `parse` models `parser.Parse` and `produce` models
`cfg.Pretty`.  `none` models a Go panic (slicing `stmt[:pos]` with `pos`
beyond the length) or fuel exhaustion; fuel `length + 1` is provably
sufficient when `split` stays in range. -/
def blobLoop (split : List Char → Int) (parse : List Char → Except ε (List α))
    (produce : α → List Char) :
    Nat → List Char → List Char → Option (Except ε (List Char))
  | 0, acc, stmt => if stmt = [] then some (Except.ok acc) else none
  | fuel + 1, acc, stmt =>
    if stmt = [] then some (Except.ok acc)
    else
      let t := trimSpace stmt
      let g := commentGather (t.length + 1) acc t false
      let acc1 := g.1
      let rest := g.2.1
      let hc1 := g.2.2
      let pos := split rest
      let sliced : Option (List Char × List Char) :=
        if 0 < pos then
          if (rest.length : Int) < pos then none
          else some (rest.take pos.toNat, rest.drop pos.toNat)
        else some (rest, [])
      match sliced with
      | none => none
      | some (next, stmt2) =>
        match parse next with
        | Except.error e => some (Except.error e)
        | Except.ok asts =>
          let acc2 := acc1 ++ (asts.map (fun a => produce a ++ [';', '\n'])).flatten
          let hc := hc1 || !asts.isEmpty
          let acc3 := if hc then acc2 ++ ['\n'] else acc2
          blobLoop split parse produce fuel acc3 stmt2

/-- The blob iteration of Go `FmtSQL`: blobs are processed in order with
the accumulator carried across them; a parse error aborts the call with
that error and no output. -/
def fmtBlobs (split : List Char → Int) (parse : List Char → Except ε (List α))
    (produce : α → List Char) :
    List (List Char) → List Char → Option (Except ε (List Char))
  | [], acc => some (Except.ok acc)
  | b :: bs, acc =>
    match blobLoop split parse produce (b.length + 1) acc b with
    | none => none
    | some (Except.error e) => some (Except.error e)
    | some (Except.ok acc2) => fmtBlobs split parse produce bs acc2

/-- Go `FmtSQL` from `src/sqlfmt.go`: drive every blob through the
per-blob loop, then right-trim the accumulated output of whitespace. -/
def FmtSQL (split : List Char → Int) (parse : List Char → Except ε (List α))
    (produce : α → List Char) (stmts : List (List Char)) :
    Option (Except ε (List Char)) :=
  match fmtBlobs split parse produce stmts [] with
  | none => none
  | some (Except.error e) => some (Except.error e)
  | some (Except.ok acc) => some (Except.ok (trimRightWS acc))

/-! ### The comment-gathering contract (C6) -/

/-- C6: whenever the remaining text begins with a line comment (`--…`),
the recognizer matches the two dashes, the rest of the line and the
maximal trailing whitespace run, and one pass of the comment-gathering
step appends exactly the matched text with trailing whitespace trimmed
followed by `min(newlines in the match, 2)` newline characters, then
advances past the whole match (setting `hasContent`).  This holds at every
iteration of the loop, hence for every comment occurrence in every
input. -/
theorem c6_comment_step (s acc : List Char) (hc : Bool) (fuel : Nat)
    (h : s.take 2 = ['-', '-']) :
    ignoreComments s =
      '-' :: '-' :: ((s.drop 2).takeWhile (fun c => decide (c ≠ '\n')) ++
        ((s.drop 2).dropWhile (fun c => decide (c ≠ '\n'))).takeWhile
          isRegexSpace) ∧
    commentGather (fuel + 1) acc s hc
      = commentGather fuel
          (acc ++ trimRightWS (ignoreComments s) ++
            List.replicate (min ((ignoreComments s).count '\n') 2) '\n')
          (s.drop (ignoreComments s).length) true := by
  have h1 : ignoreComments s =
      '-' :: '-' :: ((s.drop 2).takeWhile (fun c => decide (c ≠ '\n')) ++
        ((s.drop 2).dropWhile (fun c => decide (c ≠ '\n'))).takeWhile
          isRegexSpace) := by
    simp only [ignoreComments, if_pos h]
  have hne : ignoreComments s ≠ [] := by
    rw [h1]
    simp
  refine ⟨h1, ?_⟩
  simp only [commentGather]
  rw [if_neg hne]

/-- Witness for C6 at the input `"--x \n\n\n\nY"`. -/
theorem c6_witness :
    ("--x \n\n\n\nY".toList.take 2 = ['-', '-']) ∧
    (ignoreComments "--x \n\n\n\nY".toList =
      '-' :: '-' :: (("--x \n\n\n\nY".toList.drop 2).takeWhile
          (fun c => decide (c ≠ '\n')) ++
        (("--x \n\n\n\nY".toList.drop 2).dropWhile
          (fun c => decide (c ≠ '\n'))).takeWhile isRegexSpace) ∧
    commentGather 4 [] "--x \n\n\n\nY".toList false
      = commentGather 3
          ([] ++ trimRightWS (ignoreComments "--x \n\n\n\nY".toList) ++
            List.replicate
              (min ((ignoreComments "--x \n\n\n\nY".toList).count '\n') 2) '\n')
          ("--x \n\n\n\nY".toList.drop
            (ignoreComments "--x \n\n\n\nY".toList).length) true) :=
  ⟨by decide, c6_comment_step "--x \n\n\n\nY".toList [] false 3 (by decide)⟩

/-! ### Termination of the pipeline (C9) -/

theorem commentGather_rest_le :
    ∀ (fuel : Nat) (acc s : List Char) (hc : Bool),
    (commentGather fuel acc s hc).2.1.length ≤ s.length := by
  intro fuel
  induction fuel with
  | zero => intro acc s hc; exact le_refl _
  | succ fuel ih =>
    intro acc s hc
    by_cases hne : ignoreComments s = []
    · simp [commentGather, hne]
    · simp only [commentGather]
      rw [if_neg hne]
      refine le_trans (ih _ _ _) ?_
      rw [List.length_drop]
      omega

theorem dropWhileWS_length_le (p : Char → Bool) (s : List Char) :
    (s.dropWhile p).length ≤ s.length :=
  (List.dropWhile_suffix p).sublist.length_le

theorem trimRightWS_length_le (s : List Char) :
    (trimRightWS s).length ≤ s.length := by
  simp only [trimRightWS, List.length_reverse]
  exact le_trans (dropWhileWS_length_le _ _) (by simp)

theorem trimSpace_length_le (s : List Char) :
    (trimSpace s).length ≤ s.length :=
  le_trans (trimRightWS_length_le _) (dropWhileWS_length_le _ _)

theorem blobLoop_nil {ε α : Type} (split : List Char → Int)
    (parse : List Char → Except ε (List α)) (produce : α → List Char)
    (fuel : Nat) (acc : List Char) :
    blobLoop split parse produce fuel acc [] = some (Except.ok acc) := by
  cases fuel <;> simp [blobLoop]

theorem blobLoop_isSome {ε α : Type} (split : List Char → Int)
    (parse : List Char → Except ε (List α)) (produce : α → List Char)
    (hin : ∀ s, 0 ≤ split s ∧ split s ≤ (s.length : Int)) :
    ∀ (fuel : Nat) (stmt acc : List Char), stmt.length < fuel →
    (blobLoop split parse produce fuel acc stmt).isSome = true := by
  intro fuel
  induction fuel with
  | zero => intro stmt acc h; omega
  | succ fuel ih =>
    intro stmt acc h
    by_cases hnil : stmt = []
    · subst hnil
      simp [blobLoop]
    · have hlen1 : 1 ≤ stmt.length := by
        cases stmt
        · exact absurd rfl hnil
        · simp
      simp only [blobLoop]
      rw [if_neg hnil]
      have hrest := le_trans
        (commentGather_rest_le ((trimSpace stmt).length + 1) acc
          (trimSpace stmt) false)
        (trimSpace_length_le stmt)
      generalize hG : commentGather ((trimSpace stmt).length + 1) acc
        (trimSpace stmt) false = g
      rw [hG] at hrest
      obtain ⟨acc1, rest, hc1⟩ := g
      simp only at hrest ⊢
      obtain ⟨hp0, hple⟩ := hin rest
      by_cases hpos : 0 < split rest
      · rw [if_pos hpos]
        have hnlt : ¬ ((rest.length : Int) < split rest) := by omega
        rw [if_neg hnlt]
        cases hp : parse (rest.take (split rest).toNat) with
        | error e => simp [hp]
        | ok asts =>
          simp only [hp]
          refine ih _ _ ?_
          rw [List.length_drop]
          have ht1 : 1 ≤ (split rest).toNat := by omega
          have ht2 : (split rest).toNat ≤ rest.length := by omega
          omega
      · rw [if_neg hpos]
        cases hp : parse rest with
        | error e => simp [hp]
        | ok asts =>
          simp only [hp, blobLoop_nil]
          rfl

theorem fmtBlobs_isSome {ε α : Type} (split : List Char → Int)
    (parse : List Char → Except ε (List α)) (produce : α → List Char)
    (hin : ∀ s, 0 ≤ split s ∧ split s ≤ (s.length : Int)) :
    ∀ (bs : List (List Char)) (acc : List Char),
    (fmtBlobs split parse produce bs acc).isSome = true := by
  intro bs
  induction bs with
  | nil => intro acc; rfl
  | cons b rest ih =>
    intro acc
    have hb := blobLoop_isSome split parse produce hin (b.length + 1) b acc
      (by omega)
    obtain ⟨val, hval⟩ := Option.isSome_iff_exists.mp hb
    simp only [fmtBlobs, hval]
    cases val with
    | error e => rfl
    | ok acc2 => exact ih acc2

/-- C9: assuming `splitFirstStatement` returns an offset between 0 and the
length of its argument (and the parser collaborator, being a function,
terminates), `FmtSQL` terminates on every list of input blobs without
panicking: each iteration of the per-blob loop either strictly shortens
the remaining text or sets it to empty, so the supplied fuel is never
exhausted. -/
theorem c9_termination {ε α : Type} (split : List Char → Int)
    (parse : List Char → Except ε (List α)) (produce : α → List Char)
    (stmts : List (List Char))
    (hin : ∀ s, 0 ≤ split s ∧ split s ≤ (s.length : Int)) :
    (FmtSQL split parse produce stmts).isSome = true := by
  have hb := fmtBlobs_isSome split parse produce hin stmts []
  obtain ⟨val, hval⟩ := Option.isSome_iff_exists.mp hb
  simp only [FmtSQL, hval]
  cases val <;> rfl

/-- Witness for C9 with in-range collaborators on a concrete blob. -/
theorem c9_witness :
    (∀ s : List Char, 0 ≤ (fun (_ : List Char) => (0 : Int)) s ∧
      (fun (_ : List Char) => (0 : Int)) s ≤ (s.length : Int)) ∧
    (FmtSQL (fun _ => (0 : Int))
      (fun _ => (Except.ok [()] : Except Unit (List Unit)))
      (fun _ => ['y']) [['S'], ['T']]).isSome = true :=
  ⟨fun _ => ⟨le_refl 0, Int.ofNat_nonneg _⟩,
   c9_termination _ _ _ _ (fun _ => ⟨le_refl 0, Int.ofNat_nonneg _⟩)⟩

/-! ### Whitespace at the edges of the output (C7) -/

/-- No leading whitespace (vacuous for the empty string). -/
def noLeadWS (l : List Char) : Prop :=
  ∀ c, l.head? = some c → isUnicodeSpace c = false

/-- No trailing whitespace (vacuous for the empty string). -/
def noTrailWS (l : List Char) : Prop :=
  ∀ c, l.getLast? = some c → isUnicodeSpace c = false

theorem head?_dropWhile_not (p : Char → Bool) :
    ∀ (l : List Char) (c : Char), (l.dropWhile p).head? = some c → p c = false := by
  intro l
  induction l with
  | nil => intro c h; simp [List.dropWhile] at h
  | cons a t ih =>
    intro c h
    by_cases hp : p a
    · rw [List.dropWhile_cons_of_pos hp] at h
      exact ih c h
    · rw [List.dropWhile_cons_of_neg hp] at h
      simp only [List.head?_cons, Option.some.injEq] at h
      subst h
      simpa using hp

theorem dropWhile_append_last (p : Char → Bool) (c : Char) (hc : p c = false) :
    ∀ xs : List Char, ∃ ys, ((xs ++ [c]).dropWhile p) = ys ++ [c] := by
  intro xs
  induction xs with
  | nil =>
    refine ⟨[], ?_⟩
    simp [List.dropWhile, hc]
  | cons a t ih =>
    by_cases hp : p a
    · obtain ⟨ys, hys⟩ := ih
      refine ⟨ys, ?_⟩
      rw [List.cons_append, List.dropWhile_cons_of_pos hp, hys]
    · refine ⟨a :: t, ?_⟩
      rw [List.cons_append, List.dropWhile_cons_of_neg hp]

theorem trimRightWS_cons_head {c : Char} (l : List Char)
    (hc : isUnicodeSpace c = false) :
    trimRightWS (c :: l) ≠ [] ∧ (trimRightWS (c :: l)).head? = some c := by
  obtain ⟨ys, hys⟩ := dropWhile_append_last isUnicodeSpace c hc l.reverse
  have : trimRightWS (c :: l) = c :: ys.reverse := by
    simp only [trimRightWS, List.reverse_cons, hys, List.reverse_append,
      List.reverse_cons, List.reverse_nil, List.nil_append, List.singleton_append]
  rw [this]
  exact ⟨by simp, rfl⟩

theorem noLeadWS_nil : noLeadWS [] := by
  intro c h
  simp at h

theorem noLeadWS_append {a b : List Char} (ha : noLeadWS a) (hb : noLeadWS b) :
    noLeadWS (a ++ b) := by
  cases a with
  | nil => simpa using hb
  | cons x t =>
    intro c h
    simp only [List.cons_append, List.head?_cons, Option.some.injEq] at h
    subst h
    exact ha x rfl

theorem noLeadWS_append_of_ne {a b : List Char} (ha : noLeadWS a)
    (hne : a ≠ []) : noLeadWS (a ++ b) := by
  cases a with
  | nil => exact absurd rfl hne
  | cons x t =>
    intro c h
    simp only [List.cons_append, List.head?_cons, Option.some.injEq] at h
    subst h
    exact ha x rfl

theorem noLeadWS_trimRightWS {l : List Char} (h : noLeadWS l) :
    noLeadWS (trimRightWS l) := by
  cases l with
  | nil => intro c hc; simp [trimRightWS] at hc
  | cons x t =>
    have hx : isUnicodeSpace x = false := h x rfl
    obtain ⟨_, hh⟩ := trimRightWS_cons_head t hx
    intro c hc
    rw [hh] at hc
    cases hc
    exact hx

theorem getLast?_reverse_eq (l : List Char) : l.reverse.getLast? = l.head? := by
  cases l with
  | nil => rfl
  | cons a t =>
    rw [List.reverse_cons, List.getLast?_concat]
    rfl

theorem noTrailWS_trimRightWS (l : List Char) : noTrailWS (trimRightWS l) := by
  intro c h
  simp only [trimRightWS] at h
  rw [getLast?_reverse_eq] at h
  exact head?_dropWhile_not isUnicodeSpace _ c h

theorem ignoreComments_shape {s : List Char} (h : ignoreComments s ≠ []) :
    ∃ t, ignoreComments s = '-' :: t := by
  by_cases hs : s.take 2 = ['-', '-']
  · exact ⟨'-' :: ((s.drop 2).takeWhile (fun c => decide (c ≠ '\n')) ++
      ((s.drop 2).dropWhile (fun c => decide (c ≠ '\n'))).takeWhile
        isRegexSpace), by simp only [ignoreComments, if_pos hs]⟩
  · exact absurd (by simp only [ignoreComments, if_neg hs]) h

theorem commentGather_inv :
    ∀ (fuel : Nat) (acc s : List Char) (hc : Bool),
    noLeadWS acc → (hc = true → acc ≠ []) →
    noLeadWS (commentGather fuel acc s hc).1 ∧
    ((commentGather fuel acc s hc).2.2 = true →
      (commentGather fuel acc s hc).1 ≠ []) := by
  intro fuel
  induction fuel with
  | zero => intro acc s hc h1 h2; exact ⟨h1, h2⟩
  | succ fuel ih =>
    intro acc s hc h1 h2
    by_cases hne : ignoreComments s = []
    · simp only [commentGather]
      rw [if_pos hne]
      exact ⟨h1, h2⟩
    · obtain ⟨t, ht⟩ := ignoreComments_shape hne
      have hdash : isUnicodeSpace '-' = false := by decide
      have htr := trimRightWS_cons_head t hdash
      have hchunkNe : trimRightWS (ignoreComments s) ≠ [] := by
        rw [ht]
        exact htr.1
      have hchunkLead : noLeadWS (trimRightWS (ignoreComments s)) := by
        rw [ht]
        intro c hcd
        rw [htr.2] at hcd
        cases hcd
        exact hdash
      have haccLead : noLeadWS (acc ++ trimRightWS (ignoreComments s) ++
          List.replicate (min ((ignoreComments s).count '\n') 2) '\n') := by
        refine noLeadWS_append_of_ne
          (noLeadWS_append h1 hchunkLead) ?_
        simp only [ne_eq, List.append_eq_nil]
        intro hcon
        exact hchunkNe hcon.2
      have haccNe : acc ++ trimRightWS (ignoreComments s) ++
          List.replicate (min ((ignoreComments s).count '\n') 2) '\n' ≠ [] := by
        simp only [ne_eq, List.append_eq_nil]
        intro hcon
        exact hchunkNe hcon.1.2
      simp only [commentGather]
      rw [if_neg hne]
      exact ih _ _ true haccLead (fun _ => haccNe)

theorem producerChunk_noLead {α : Type} (produce : α → List Char)
    (hprod : ∀ a c, (produce a).head? = some c → isUnicodeSpace c = false) :
    ∀ asts : List α,
    noLeadWS ((asts.map (fun a => produce a ++ [';', '\n'])).flatten) ∧
    (asts ≠ [] →
      (asts.map (fun a => produce a ++ [';', '\n'])).flatten ≠ []) := by
  intro asts
  induction asts with
  | nil => exact ⟨noLeadWS_nil, fun hh => absurd rfl hh⟩
  | cons a tl ih =>
    have hchunk : noLeadWS (produce a ++ [';', '\n']) := by
      cases hpa : produce a with
      | nil =>
        intro c hcd
        simp only [List.nil_append, List.head?_cons, Option.some.injEq] at hcd
        subst hcd
        decide
      | cons x t2 =>
        intro c hcd
        simp only [List.cons_append, List.head?_cons, Option.some.injEq] at hcd
        subst hcd
        exact hprod a x (by rw [hpa]; rfl)
    constructor
    · simp only [List.map_cons, List.flatten_cons]
      exact noLeadWS_append hchunk ih.1
    · intro _
      simp only [List.map_cons, List.flatten_cons, ne_eq, List.append_eq_nil]
      intro hcon
      have hfirst := hcon.1
      cases hpa : produce a with
      | nil => rw [hpa] at hfirst; simp at hfirst
      | cons x t2 => rw [hpa] at hfirst; simp at hfirst

theorem blobLoop_noLead {ε α : Type} (split : List Char → Int)
    (parse : List Char → Except ε (List α)) (produce : α → List Char)
    (hprod : ∀ a c, (produce a).head? = some c → isUnicodeSpace c = false) :
    ∀ (fuel : Nat) (stmt acc out : List Char), noLeadWS acc →
    blobLoop split parse produce fuel acc stmt = some (Except.ok out) →
    noLeadWS out := by
  intro fuel
  induction fuel with
  | zero =>
    intro stmt acc out h1 h2
    by_cases hnil : stmt = []
    · subst hnil
      simp [blobLoop] at h2
      subst h2
      exact h1
    · rw [show blobLoop split parse produce 0 acc stmt = none by
        simp [blobLoop, hnil]] at h2
      cases h2
  | succ fuel ih =>
    intro stmt acc out h1 h2
    by_cases hnil : stmt = []
    · subst hnil
      simp [blobLoop] at h2
      subst h2
      exact h1
    · simp only [blobLoop] at h2
      rw [if_neg hnil] at h2
      have hcg := commentGather_inv ((trimSpace stmt).length + 1) acc
        (trimSpace stmt) false h1 (fun hf => absurd hf (by decide))
      cases hGeq : commentGather ((trimSpace stmt).length + 1) acc
          (trimSpace stmt) false with
      | mk acc1 g2 =>
        cases g2 with
        | mk rest hc1 =>
          rw [hGeq] at h2 hcg
          simp only at h2 hcg
          by_cases hpos : 0 < split rest
          · rw [if_pos hpos] at h2
            by_cases hlt : (rest.length : Int) < split rest
            · rw [if_pos hlt] at h2
              simp at h2
            · rw [if_neg hlt] at h2
              cases hp : parse (rest.take (split rest).toNat) with
              | error e => simp [hp] at h2
              | ok asts =>
                simp only [hp] at h2
                have hpc := producerChunk_noLead produce hprod asts
                have hacc2 : noLeadWS (acc1 ++
                    (asts.map (fun a => produce a ++ [';', '\n'])).flatten) :=
                  noLeadWS_append hcg.1 hpc.1
                by_cases hcnd : (hc1 || !asts.isEmpty) = true
                · rw [if_pos hcnd] at h2
                  have hacc2ne : acc1 ++
                      (asts.map (fun a => produce a ++ [';', '\n'])).flatten
                        ≠ [] := by
                    simp only [ne_eq, List.append_eq_nil]
                    intro hcon
                    rcases Bool.or_eq_true_iff.mp hcnd with hh | hh
                    · exact hcg.2 hh hcon.1
                    · refine hpc.2 ?_ hcon.2
                      intro hae
                      subst hae
                      simp at hh
                  exact ih _ _ out
                    (noLeadWS_append_of_ne hacc2 hacc2ne) h2
                · rw [if_neg hcnd] at h2
                  exact ih _ _ out hacc2 h2
          · rw [if_neg hpos] at h2
            cases hp : parse rest with
            | error e => simp [hp] at h2
            | ok asts =>
              simp only [hp] at h2
              have hpc := producerChunk_noLead produce hprod asts
              have hacc2 : noLeadWS (acc1 ++
                  (asts.map (fun a => produce a ++ [';', '\n'])).flatten) :=
                noLeadWS_append hcg.1 hpc.1
              by_cases hcnd : (hc1 || !asts.isEmpty) = true
              · rw [if_pos hcnd] at h2
                have hacc2ne : acc1 ++
                    (asts.map (fun a => produce a ++ [';', '\n'])).flatten
                      ≠ [] := by
                  simp only [ne_eq, List.append_eq_nil]
                  intro hcon
                  rcases Bool.or_eq_true_iff.mp hcnd with hh | hh
                  · exact hcg.2 hh hcon.1
                  · refine hpc.2 ?_ hcon.2
                    intro hae
                    subst hae
                    simp at hh
                exact ih _ _ out
                  (noLeadWS_append_of_ne hacc2 hacc2ne) h2
              · rw [if_neg hcnd] at h2
                exact ih _ _ out hacc2 h2

theorem fmtBlobs_noLead {ε α : Type} (split : List Char → Int)
    (parse : List Char → Except ε (List α)) (produce : α → List Char)
    (hprod : ∀ a c, (produce a).head? = some c → isUnicodeSpace c = false) :
    ∀ (bs : List (List Char)) (acc out : List Char), noLeadWS acc →
    fmtBlobs split parse produce bs acc = some (Except.ok out) →
    noLeadWS out := by
  intro bs
  induction bs with
  | nil =>
    intro acc out h1 h2
    simp only [fmtBlobs, Option.some.injEq, Except.ok.injEq] at h2
    subst h2
    exact h1
  | cons b tl ih =>
    intro acc out h1 h2
    simp only [fmtBlobs] at h2
    cases hbl : blobLoop split parse produce (b.length + 1) acc b with
    | none => rw [hbl] at h2; cases h2
    | some val =>
      rw [hbl] at h2
      cases val with
      | error e => simp at h2
      | ok acc2 =>
        exact ih acc2 out
          (blobLoop_noLead split parse produce hprod _ b acc acc2 h1 hbl) h2

/-- C7 counterexample: the claim as stated fails for a document producer
that emits leading whitespace: with producer output `" x"`, the successful
`FmtSQL` call returns a string starting with a whitespace byte. -/
theorem c7_counterexample :
    FmtSQL (fun _ => (0 : Int))
      (fun _ => (Except.ok [()] : Except Unit (List Unit)))
      (fun _ => [' ', 'x']) [['S']] = some (Except.ok [' ', 'x', ';']) ∧
    isUnicodeSpace ' ' = true := by
  refine ⟨by rfl, by decide⟩

/-- C7 (amended): for every input blob list, every parser collaborator and
every document producer, the string returned by a successful `FmtSQL` call
has no trailing whitespace; and provided every producer output starts with
a non-whitespace character (or is empty), it has no leading whitespace
either.  (The claim as stated, asserting no leading whitespace for
arbitrary producers, fails; see the counterexample.) -/
theorem c7_amended {ε α : Type} (split : List Char → Int)
    (parse : List Char → Except ε (List α)) (produce : α → List Char)
    (stmts : List (List Char)) (out : List Char)
    (hres : FmtSQL split parse produce stmts = some (Except.ok out)) :
    noTrailWS out ∧
    ((∀ a c, (produce a).head? = some c → isUnicodeSpace c = false) →
      noLeadWS out) := by
  simp only [FmtSQL] at hres
  cases hfb : fmtBlobs split parse produce stmts [] with
  | none => rw [hfb] at hres; cases hres
  | some val =>
    rw [hfb] at hres
    cases val with
    | error e => simp at hres
    | ok acc =>
      simp only [Option.some.injEq, Except.ok.injEq] at hres
      subst hres
      refine ⟨noTrailWS_trimRightWS acc, fun hprod => ?_⟩
      exact noLeadWS_trimRightWS
        (fmtBlobs_noLead split parse produce hprod stmts [] acc
          noLeadWS_nil hfb)

/-- Witness for C7 (amended) with a producer that emits `"y"`. -/
theorem c7_witness :
    (FmtSQL (fun _ => (0 : Int))
       (fun _ => (Except.ok [()] : Except Unit (List Unit)))
       (fun _ => ['y']) [['S']] = some (Except.ok ['y', ';'])) ∧
    (noTrailWS ['y', ';'] ∧
      ((∀ (a : Unit) (c : Char), ((fun (_ : Unit) => ['y']) a).head? = some c →
          isUnicodeSpace c = false) → noLeadWS ['y', ';'])) :=
  ⟨by rfl,
   c7_amended (fun _ => (0 : Int))
     (fun _ => (Except.ok [()] : Except Unit (List Unit)))
     (fun _ => ['y']) [['S']] ['y', ';'] (by rfl)⟩

end Sqlfmt
